import Mathlib

/-!
Verification development for the claude-sneakpeek utility repository.

The development shallowly embeds three source modules over `List Char`
(modelling JavaScript strings):

* `src/core/variant-builder/team-mode-patch.ts` — the flag patcher.  Its
  three regular expressions are embedded as deterministic matchers with
  JavaScript backtracking semantics; the string-template replacement of
  `String.prototype.replace` (including the `$`-substitution rules of
  GetSubstitution) is embedded by `substTemplate`.
* `src/core/mcp-presets/index.ts` — the preset registry.
* the JSON file helpers (`sanitizeJson`, `readJson`) — the filesystem is
  abstracted by an `Option (List Char)` file content, and the JavaScript
  `JSON.parse`/`JSON.stringify` builtins are embedded by an executable
  JSON grammar over a `Json` value type (numbers restricted to integers,
  which covers every value the claims mention).
-/

set_option maxRecDepth 20000

/-- Left brace character, written via its code point. -/
def lbrace : Char := Char.ofNat 123

/-- Right brace character, written via its code point. -/
def rbrace : Char := Char.ofNat 125

/-- Backtick character, written via its code point. -/
def backtickChar : Char := Char.ofNat 96

/-- Single-quote character, written via its code point. -/
def squoteChar : Char := Char.ofNat 39

/-- Whitespace in the sense of the JavaScript regular-expression class `\s`
(WhiteSpace plus LineTerminator code points). -/
def isJsSpace (c : Char) : Bool :=
  c = ' ' || c = '\t' || c = '\n' || c = '\r' ||
  c = Char.ofNat 11 || c = Char.ofNat 12 ||
  c = Char.ofNat 0xa0 || c = Char.ofNat 0x1680 ||
  (0x2000 ≤ c.toNat && c.toNat ≤ 0x200a) ||
  c = Char.ofNat 0x2028 || c = Char.ofNat 0x2029 ||
  c = Char.ofNat 0x202f || c = Char.ofNat 0x205f ||
  c = Char.ofNat 0x3000 || c = Char.ofNat 0xfeff

/-- Word characters in the sense of the regular-expression class `\w`,
namely ASCII letters, digits and underscore. -/
def isWordChar (c : Char) : Bool :=
  c.isAlpha || c.isDigit || c = '_'

/-- Characters allowed to start a gate function name, the class `[A-Za-z_$]`. -/
def isIdentStart (c : Char) : Bool :=
  c.isAlpha || c = '_' || c = '$'

/-- Characters allowed to continue a gate function name, the class `[\w$]`. -/
def isIdentChar (c : Char) : Bool :=
  isWordChar c || c = '$'

/-- Consume an exact literal from the front of the input, as a sequence of
literal atoms of a regular expression does; returns the remainder. -/
def stripLit (lit s : List Char) : Option (List Char) :=
  if lit.isPrefixOf s then some (s.drop lit.length) else none

/-- Embedding of the greedy quantifier `\s+` followed by a continuation:
one or more `\s` characters are consumed, longer runs being preferred, and
on failure of the continuation the matcher backtracks to a shorter run.
This is exactly the JavaScript backtracking semantics of `\s+`. -/
def spacesPlusThen {α : Type} (k : List Char → Option α) : List Char → Option α
  | [] => none
  | c :: rest =>
    if isJsSpace c then
      match spacesPlusThen k rest with
      | some v => some v
      | none => k rest
    else none

/-- Metacharacters escaped by the source's `escapeRegExp`, the class
written there as a global replacement over the set `. * + ? ^ $ ( ) | [ ] \`
together with the two braces. -/
def isRegExpMeta (c : Char) : Bool :=
  c = '.' || c = '*' || c = '+' || c = '?' || c = '^' || c = '$' ||
  c = lbrace || c = rbrace || c = '(' || c = ')' || c = '|' ||
  c = '[' || c = ']' || c = '\\'

/-- Embedding of `escapeRegExp` from team-mode-patch.ts: every regular
expression metacharacter is preceded by a backslash
(the source's global replace of the metacharacter class with a backslash
followed by the matched character). -/
def escapeRegExp : List Char → List Char
  | [] => []
  | c :: rest =>
    if isRegExpMeta c then '\\' :: c :: escapeRegExp rest
    else c :: escapeRegExp rest

/-- Matcher for a regular-expression fragment that consists only of literal
atoms: a backslash-escaped character is the literal escaped character (every
escape produced by `escapeRegExp` is of this literal kind in the JavaScript
grammar), and any other pattern character is itself a literal.  Returns the
remaining input after consuming the denoted literal text. -/
def litSegMatch : List Char → List Char → Option (List Char)
  | [], s => some s
  | p :: ps, s =>
    if p = '\\' then
      match ps, s with
      | c :: ps2, d :: rest => if d = c then litSegMatch ps2 rest else none
      | _, _ => none
    else
      match s with
      | d :: rest => if d = p then litSegMatch ps rest else none
      | [] => none

/-- Literal tail of the TODO_WRITE_MARKER pattern. -/
def markerTail : List Char := ("=\"TodoWrite\";").toList

/-- Alternation `(var|let|const)` of the marker pattern: the three keywords
start with distinct characters, so first-success alternation over the input
is exact. -/
def kwStrip (s : List Char) : Option (List Char) :=
  match stripLit (("var").toList) s with
  | some r => some r
  | none =>
    match stripLit (("let").toList) s with
    | some r => some r
    | none => stripLit (("const").toList) s

/-- Embedding of the regular expression
TODO_WRITE_MARKER matching at the head of the input:
keyword, one or more `\s`, an identifier `[A-Za-z_$][\w$]*`, then the
literal tail.  The identifier run uses maximal munch, which coincides with
the backtracking semantics because the character after the run must be `=`,
which is not an identifier character. -/
def markerAt (s : List Char) : Bool :=
  (match kwStrip s with
   | none => none
   | some r1 =>
     spacesPlusThen (fun r2 =>
       match r2 with
       | [] => none
       | c :: r3 =>
         if isIdentStart c then
           stripLit markerTail (r3.dropWhile isIdentChar)
         else none) r1 : Option (List Char)).isSome

/-- Embedding of `content.search(TODO_WRITE_MARKER)`: index of the leftmost
position at which the marker pattern matches, `none` when there is none. -/
def searchMarker : List Char → Option Nat
  | [] => none
  | s@(_ :: t) =>
    if markerAt s then some 0 else (searchMarker t).map (· + 1)

/-- Literal head of IS_ENABLED_FN_RE, the text before the capture group. -/
def dispatchLit : List Char := ("isEnabled()\x7breturn!").toList

/-- Literal tail of IS_ENABLED_FN_RE, the text after the capture group. -/
def dispatchClose : List Char := ("()\x7d").toList

/-- Embedding of IS_ENABLED_FN_RE matching at the head of the input,
returning the capture group `([A-Za-z_$][\w$]*)`.  The captured run uses
maximal munch, which coincides with the backtracking semantics because the
character after the run must be `(`, which is not an identifier
character. -/
def isEnabledAt (s : List Char) : Option (List Char) :=
  match stripLit dispatchLit s with
  | none => none
  | some r1 =>
    match r1 with
    | [] => none
    | c :: r2 =>
      if isIdentStart c then
        match stripLit dispatchClose (r2.dropWhile isIdentChar) with
        | some _ => some (c :: r2.takeWhile isIdentChar)
        | none => none
      else none

/-- Embedding of `window.match(IS_ENABLED_FN_RE)` restricted to the first
capture group: the capture of the leftmost match, `none` when the window has
no match. -/
def findIsEnabledName : List Char → Option (List Char)
  | [] => none
  | s@(_ :: t) =>
    match isEnabledAt s with
    | some name => some name
    | none => findIsEnabledName t

/-- Embedding of `findTodoWriteGate` from team-mode-patch.ts: search for the
marker, slice an 8000-character window at the marker index, and extract the
gate function name from the first dispatch match inside the window. -/
def findTodoWriteGate (content : List Char) : Option (List Char) :=
  match searchMarker content with
  | none => none
  | some i => findIsEnabledName ((content.drop i).take 8000)

/-- Literal mid-section of the gate-definition pattern, between the function
name and the captured boolean literal. -/
def openRetLit : List Char := ("()\x7breturn").toList

/-- The true sentinel literal. -/
def bang0 : List Char := ("!0").toList

/-- The false sentinel literal. -/
def bang1 : List Char := ("!1").toList

/-- The part of the gate-definition pattern after the whitespace run: the
escaped name, the literal mid-section, the captured alternation of the two
sentinels (tried in order, as JavaScript does), and the closing brace; on
success the captured literal and the input remaining after the whole match
are returned. -/
def gateDefTail (fnName r2 : List Char) : Option (List Char × List Char) :=
  match litSegMatch (escapeRegExp fnName) r2 with
  | none => none
  | some r3 =>
    match stripLit openRetLit r3 with
    | none => none
    | some r4 =>
      match stripLit (bang0 ++ [rbrace]) r4 with
      | some r5 => some (bang0, r5)
      | none =>
        match stripLit (bang1 ++ [rbrace]) r4 with
        | some r5 => some (bang1, r5)
        | none => none

/-- Embedding of the dynamically built gate-definition regular expression
matching at the head of the input: the literal `function`, a backtracking
`\s+` run, then `gateDefTail`.  The pattern string built by the source is
`function\s+` followed by `escapeRegExp fnName` followed by
the parenthesized-call, brace, `return`, captured `(!0|!1)`, brace tail. -/
def gateDefAt (fnName : List Char) (s : List Char) : Option (List Char × List Char) :=
  match stripLit (("function").toList) s with
  | none => none
  | some r1 => spacesPlusThen (gateDefTail fnName) r1

/-- Embedding of `content.match(fnDefRe)` for the gate-definition pattern
(the source's `findGateDefinition`): the leftmost match, reported as the
match index, the captured boolean literal, and the text after the match. -/
def findGateDefinition (fnName : List Char) : List Char → Option (Nat × List Char × List Char)
  | [] => none
  | s@(_ :: t) =>
    match gateDefAt fnName s with
    | some (cap, rest) => some (0, cap, rest)
    | none => (findGateDefinition fnName t).map (fun p => (p.1 + 1, p.2))

mutual
/-- Embedding of the GetSubstitution rules applied by
`String.prototype.replace` to a string replacement template, for a regular
expression with exactly one capture group: `$$` inserts a dollar, `$&` the
matched text, a dollar before a backtick the text before the match, a dollar
before a quote the text after the match, and both the one-digit reference
`$1` and the two-digit reference `$01` insert the capture.  Every other
dollar sequence (`$0`, `$2`-`$9`, `$00`, `$02` and so on, `$<`, a trailing
dollar) is copied literally, after which scanning resumes at the following
character. -/
def substTemplate (matched before after cap : List Char) : List Char → List Char
  | [] => []
  | c :: rest =>
    if c = '$' then substDollar matched before after cap rest
    else c :: substTemplate matched before after cap rest

/-- Processing of the text following a dollar sign in a replacement
template, the case analysis of GetSubstitution for one capture group.  For
a literal `$0` (first digit zero, two-digit index out of range) scanning
resumes at the character after the `0`, which may itself start a dollar
sequence. -/
def substDollar (matched before after cap : List Char) : List Char → List Char
  | [] => ['$']
  | d :: rest2 =>
    if d = '$' then '$' :: substTemplate matched before after cap rest2
    else if d = '&' then matched ++ substTemplate matched before after cap rest2
    else if d = backtickChar then before ++ substTemplate matched before after cap rest2
    else if d = squoteChar then after ++ substTemplate matched before after cap rest2
    else if d = '1' then cap ++ substTemplate matched before after cap rest2
    else if d = '0' then substZero matched before after cap rest2
    else '$' :: d :: substTemplate matched before after cap rest2

/-- Processing of the text following a `$0` whose two-digit reference did
not resolve: if the next character is the digit `1` the two-digit reference
`$01` resolves to the capture; otherwise `$0` is literal and scanning
resumes at that character, which may itself start a dollar sequence. -/
def substZero (matched before after cap : List Char) : List Char → List Char
  | [] => ['$', '0']
  | e :: rest3 =>
    if e = '1' then cap ++ substTemplate matched before after cap rest3
    else if e = '$' then '$' :: '0' :: substDollar matched before after cap rest3
    else '$' :: '0' :: e :: substTemplate matched before after cap rest3
end

/-- The replacement template built by `setTeamModeEnabled`:
`function ` followed by the gate name followed by `(){return`, the desired
literal, and a closing brace. -/
def mkTemplate (fnName lit : List Char) : List Char :=
  ("function ").toList ++ fnName ++ openRetLit ++ lit ++ [rbrace]

/-- The literal encoding the desired flag value, `!0` for true and `!1` for
false. -/
def desiredLiteral (enable : Bool) : List Char :=
  if enable then bang0 else bang1

/-- Team mode state, the exported TeamModeState union. -/
inductive TeamModeState where
  | enabled : TeamModeState
  | disabled : TeamModeState
  | unknown : TeamModeState
deriving DecidableEq, Repr

/-- Result record of `setTeamModeEnabled`. -/
structure PatchResult where
  content : List Char
  changed : Bool
  state : TeamModeState
deriving DecidableEq, Repr

/-- Embedding of `detectTeamModeState` from team-mode-patch.ts. -/
def detectTeamModeState (content : List Char) : TeamModeState :=
  match findTodoWriteGate content with
  | none => .unknown
  | some fnName =>
    match findGateDefinition fnName content with
    | none => .unknown
    | some (_, cap, _) => if cap = bang0 then .enabled else .disabled

/-- Embedding of `setTeamModeEnabled` from team-mode-patch.ts.  The
replacement of the first match performed by `content.replace(fnDefRe, …)`
is embedded as: text before the match, then the template processed by the
GetSubstitution rules, then the text after the match. -/
def setTeamModeEnabled (content : List Char) (enable : Bool) : PatchResult :=
  match findTodoWriteGate content with
  | none => ⟨content, false, .unknown⟩
  | some fnName =>
    match findGateDefinition fnName content with
    | none => ⟨content, false, .unknown⟩
    | some (i, cap, rest) =>
      if cap = desiredLiteral enable then
        ⟨content, false, if enable then .enabled else .disabled⟩
      else
        let suffix := content.drop i
        let matched := suffix.take (suffix.length - rest.length)
        let before := content.take i
        ⟨before ++ substTemplate matched before rest cap (mkTemplate fnName (desiredLiteral enable)) ++ rest,
         true, if enable then .enabled else .disabled⟩

/-- MCP server configuration record, from mcp-presets/index.ts. -/
structure McpServerConfig where
  command : List Char
  args : List (List Char)
  env : List (List Char × List Char)
deriving DecidableEq, Repr

/-- MCP preset record, from mcp-presets/index.ts. -/
structure McpPreset where
  key : List Char
  label : List Char
  description : List Char
  server : McpServerConfig
  prerequisites : List (List Char)
  warning : Option (List Char)
deriving DecidableEq, Repr

/-- The codex preset constant. -/
def CODEX_PRESET : McpPreset where
  key := ("codex").toList
  label := ("Codex Subagent").toList
  description := ("Delegate coding tasks to OpenAI Codex CLI with spawn_agent and spawn_agents_parallel tools").toList
  server := { command := ("uvx").toList, args := [("codex-as-mcp@latest").toList], env := [] }
  prerequisites := [("Codex CLI v0.46.0+ installed").toList,
                    ("Non-interactive auth configured in ~/.codex/config.toml").toList]
  warning := some (("Uses --full-auto flag granting command execution and file editing permissions").toList)

/-- The gemini preset constant. -/
def GEMINI_PRESET : McpPreset where
  key := ("gemini").toList
  label := ("Gemini CLI").toList
  description := ("Query Google Gemini for large file analysis (1M+ tokens) and sandboxed code execution").toList
  server := { command := ("npx").toList, args := [("-y").toList, ("gemini-mcp-tool").toList], env := [] }
  prerequisites := [("Node.js v16.0.0+").toList,
                    ("Google Gemini CLI installed and configured").toList]
  warning := none

/-- All available MCP presets. -/
def MCP_PRESETS : List McpPreset := [CODEX_PRESET, GEMINI_PRESET]

/-- Embedding of `listMcpPresets` (the source returns a fresh copy of the
array, which is the same value). -/
def listMcpPresets : List McpPreset := MCP_PRESETS

/-- Embedding of `getMcpPreset`. -/
def getMcpPreset (key : List Char) : Option McpPreset :=
  MCP_PRESETS.find? (fun p => p.key = key)

/-- Splitting on every comma, the semantics of `String.prototype.split`
with a one-character separator (empty tokens are kept). -/
def splitOnCommaAux : List Char → List Char → List (List Char)
  | [], acc => [acc.reverse]
  | c :: rest, acc =>
    if c = ',' then acc.reverse :: splitOnCommaAux rest []
    else splitOnCommaAux rest (c :: acc)

/-- Embedding of `input.split(',')`. -/
def splitOnComma (s : List Char) : List (List Char) := splitOnCommaAux s []

/-- Embedding of `String.prototype.trim`: strip the JavaScript whitespace
set from both ends. -/
def trimJs (s : List Char) : List Char :=
  ((s.dropWhile isJsSpace).reverse.dropWhile isJsSpace).reverse

/-- Embedding of `k.trim().toLowerCase()` applied to one token.  The
lowercasing is the ASCII mapping; the recognized preset keys are ASCII, so
this agrees with the JavaScript Unicode mapping on every comparison the
filter performs. -/
def normalizeKey (s : List Char) : List Char :=
  (trimJs s).map Char.toLower

/-- Embedding of `parseMcpPresets`: an undefined or empty input yields `[]`,
otherwise the input is split on commas, each token trimmed and lowercased,
and only the recognized preset keys are kept. -/
def parseMcpPresets (input : Option (List Char)) : List (List Char) :=
  match input with
  | none => []
  | some s =>
    if s = [] then []
    else ((splitOnComma s).map normalizeKey).filter (fun k => (getMcpPreset k).isSome)

mutual
/-- JSON value, the domain of the JSON.parse/JSON.stringify builtins.
Numbers are modelled as integers; every value in the claims is
integer-free anyway, and the embedded parser rejects fractional or
exponent notation rather than misreading it. -/
inductive Json where
  | null : Json
  | bool : Bool → Json
  | num : Int → Json
  | str : List Char → Json
  | arr : JsonItems → Json
  | obj : JsonFields → Json
deriving DecidableEq, Repr

/-- Array elements of a JSON value. -/
inductive JsonItems where
  | nil : JsonItems
  | cons : Json → JsonItems → JsonItems
deriving DecidableEq, Repr

/-- Object fields of a JSON value, in property order. -/
inductive JsonFields where
  | nil : JsonFields
  | cons : List Char → Json → JsonFields → JsonFields
deriving DecidableEq, Repr
end

/-- Hexadecimal digit character for code-unit escapes, lowercase as emitted
by JSON.stringify. -/
def hexDigit (n : Nat) : Char :=
  if n < 10 then Char.ofNat (48 + n) else Char.ofNat (87 + n)

/-- Quoting of one character inside a JSON string, the QuoteJSONString
rules of JSON.stringify. -/
def quoteChar (c : Char) : List Char :=
  if c = '"' then ['\\', '"']
  else if c = '\\' then ['\\', '\\']
  else if c = Char.ofNat 8 then ['\\', 'b']
  else if c = Char.ofNat 12 then ['\\', 'f']
  else if c = '\n' then ['\\', 'n']
  else if c = '\r' then ['\\', 'r']
  else if c = '\t' then ['\\', 't']
  else if c.toNat < 32 then
    ['\\', 'u', '0', '0', hexDigit (c.toNat / 16), hexDigit (c.toNat % 16)]
  else [c]

/-- Quoting of a whole JSON string including the surrounding quotes. -/
def quoteString (s : List Char) : List Char :=
  '"' :: (s.map quoteChar).flatten ++ ['"']

mutual
/-- Embedding of `JSON.stringify(value)` with no indentation. -/
def jsonStringify : Json → List Char
  | .null => ("null").toList
  | .bool b => if b then ("true").toList else ("false").toList
  | .num n => (toString n).toList
  | .str s => quoteString s
  | .arr items => '[' :: stringifyItems items ++ [']']
  | .obj fields => lbrace :: stringifyFields fields ++ [rbrace]

/-- Serialization of array elements, comma separated. -/
def stringifyItems : JsonItems → List Char
  | .nil => []
  | .cons j .nil => jsonStringify j
  | .cons j rest => jsonStringify j ++ ',' :: stringifyItems rest

/-- Serialization of object fields, comma separated. -/
def stringifyFields : JsonFields → List Char
  | .nil => []
  | .cons k v .nil => quoteString k ++ ':' :: jsonStringify v
  | .cons k v rest => quoteString k ++ ':' :: jsonStringify v ++ ',' :: stringifyFields rest
end

/-- JSON grammar whitespace. -/
def isJsonWs (c : Char) : Bool :=
  c = ' ' || c = '\t' || c = '\n' || c = '\r'

/-- Skip JSON whitespace. -/
def skipWs (s : List Char) : List Char := s.dropWhile isJsonWs

/-- Value of a hexadecimal digit character. -/
def hexVal (c : Char) : Option Nat :=
  if '0' ≤ c ∧ c ≤ '9' then some (c.toNat - 48)
  else if 'a' ≤ c ∧ c ≤ 'f' then some (c.toNat - 87)
  else if 'A' ≤ c ∧ c ≤ 'F' then some (c.toNat - 55)
  else none

/-- Parse the body of a JSON string after the opening quote; returns the
decoded content and the input after the closing quote. -/
def parseStringBody (fuel : Nat) (s : List Char) : Option (List Char × List Char) :=
  match fuel, s with
  | 0, _ => none
  | _, [] => none
  | fuel + 1, c :: rest =>
    if c = '"' then some ([], rest)
    else if c = '\\' then
      match rest with
      | [] => none
      | e :: rest2 =>
        let dec : Option (Char × List Char) :=
          if e = '"' then some ('"', rest2)
          else if e = '\\' then some ('\\', rest2)
          else if e = '/' then some ('/', rest2)
          else if e = 'b' then some (Char.ofNat 8, rest2)
          else if e = 'f' then some (Char.ofNat 12, rest2)
          else if e = 'n' then some ('\n', rest2)
          else if e = 'r' then some ('\r', rest2)
          else if e = 't' then some ('\t', rest2)
          else if e = 'u' then
            match rest2 with
            | h1 :: h2 :: h3 :: h4 :: rest3 =>
              match hexVal h1, hexVal h2, hexVal h3, hexVal h4 with
              | some a, some b, some c2, some d =>
                some (Char.ofNat (((a * 16 + b) * 16 + c2) * 16 + d), rest3)
              | _, _, _, _ => none
            | _ => none
          else none
        match dec with
        | none => none
        | some (ch, r) =>
          match parseStringBody fuel r with
          | none => none
          | some (out, rr) => some (ch :: out, rr)
    else if c.toNat < 32 then none
    else
      match parseStringBody fuel rest with
      | none => none
      | some (out, rr) => some (c :: out, rr)

/-- Parse a JSON integer literal (optional minus, no leading zeros); the
grammar's fraction and exponent forms are rejected rather than misread. -/
def parseIntLit (s : List Char) : Option (Int × List Char) :=
  let core : List Char → Option (Int × List Char) := fun t =>
    let digits := t.takeWhile Char.isDigit
    let rest := t.dropWhile Char.isDigit
    match digits with
    | [] => none
    | d :: ds =>
      if d = '0' ∧ ds ≠ [] then none
      else
        match rest with
        | r :: _ =>
          if r = '.' ∨ r = 'e' ∨ r = 'E' then none
          else some ((digits.foldl (fun a c => a * 10 + (c.toNat - 48)) 0 : Nat), rest)
        | [] => some ((digits.foldl (fun a c => a * 10 + (c.toNat - 48)) 0 : Nat), rest)
  match s with
  | '-' :: t => (core t).map (fun p => (-p.1, p.2))
  | t => core t

/-- Insert a parsed object member, the CreateDataProperty semantics of
JSON.parse: a duplicate key overwrites the value in place, keeping the
position of the first occurrence. -/
def setField : JsonFields → List Char → Json → JsonFields
  | .nil, k, v => .cons k v .nil
  | .cons k2 v2 rest, k, v =>
    if k2 = k then .cons k2 v rest
    else .cons k2 v2 (setField rest k v)

mutual
/-- Parse one JSON value; returns the value and the remaining input. -/
def parseValue (fuel : Nat) (s : List Char) : Option (Json × List Char) :=
  match fuel with
  | 0 => none
  | fuel + 1 =>
    match skipWs s with
    | [] => none
    | c :: rest =>
      if c = 'n' then
        (stripLit (("ull").toList) rest).map (fun r => (Json.null, r))
      else if c = 't' then
        (stripLit (("rue").toList) rest).map (fun r => (Json.bool true, r))
      else if c = 'f' then
        (stripLit (("alse").toList) rest).map (fun r => (Json.bool false, r))
      else if c = '"' then
        (parseStringBody (rest.length + 1) rest).map (fun p => (Json.str p.1, p.2))
      else if c = '[' then
        match skipWs rest with
        | ']' :: r2 => some (Json.arr .nil, r2)
        | _ => (parseItems fuel rest).map (fun p => (Json.arr p.1, p.2))
      else if c = lbrace then
        match skipWs rest with
        | r :: r2 => if r = rbrace then some (Json.obj .nil, r2)
                     else (parseMembers fuel .nil rest).map (fun p => (Json.obj p.1, p.2))
        | [] => none
      else
        (parseIntLit (c :: rest)).map (fun p => (Json.num p.1, p.2))

/-- Parse the comma-separated elements of a non-empty array, up to and
including the closing bracket. -/
def parseItems (fuel : Nat) (s : List Char) : Option (JsonItems × List Char) :=
  match fuel with
  | 0 => none
  | fuel + 1 =>
    match parseValue fuel s with
    | none => none
    | some (v, r) =>
      match skipWs r with
      | ',' :: r2 =>
        (parseItems fuel r2).map (fun p => (JsonItems.cons v p.1, p.2))
      | ']' :: r2 => some (JsonItems.cons v .nil, r2)
      | _ => none

/-- Parse the comma-separated members of a non-empty object, up to and
including the closing brace.  Members are defined left to right into the
accumulated fields by `setField`, the property-definition order of
JSON.parse, so a duplicate key keeps its first position with its last
value. -/
def parseMembers (fuel : Nat) (acc : JsonFields) (s : List Char) : Option (JsonFields × List Char) :=
  match fuel with
  | 0 => none
  | fuel + 1 =>
    match skipWs s with
    | '"' :: r =>
      match parseStringBody (r.length + 1) r with
      | none => none
      | some (key, r2) =>
        match skipWs r2 with
        | ':' :: r3 =>
          match parseValue fuel r3 with
          | none => none
          | some (v, r4) =>
            match skipWs r4 with
            | ',' :: r5 => parseMembers fuel (setField acc key v) r5
            | r6 :: r7 => if r6 = rbrace then some (setField acc key v, r7) else none
            | [] => none
        | _ => none
    | _ => none
end

/-- Embedding of `JSON.parse(content)`: parse one value and require only
whitespace after it. -/
def jsonParse (s : List Char) : Option Json :=
  match parseValue (2 * s.length + 16) s with
  | none => none
  | some (v, rest) => if skipWs rest = [] then some v else none

/-- Embedding of `sanitizeJson` from the JSON helper module: the value is
round-tripped through `JSON.stringify` and `JSON.parse`
(`JSON.parse(JSON.stringify(obj))`); a failure of the round trip is an
exception in the source, modelled as `none` and absorbed by the caller's
catch block. -/
def sanitizeJson (v : Json) : Option Json :=
  jsonParse (jsonStringify v)

/-- Maximum JSON file size accepted by `readJson`, 1 MiB. -/
def MAX_JSON_SIZE : Nat := 1024 * 1024

/-- Embedding of `readJson`.  The filesystem is abstracted by the file's
content, `none` when the file is missing (statSync or readFileSync throws,
caught as null); an oversized file, a parse failure, or a sanitize failure
likewise surfaces as `none` through the catch block. -/
def readJson (file : Option (List Char)) : Option Json :=
  match file with
  | none => none
  | some content =>
    if content.length > MAX_JSON_SIZE then none
    else
      match jsonParse content with
      | none => none
      | some v => sanitizeJson v

mutual
/-- Cleanliness of a replacement template: no dollar sequence triggers a
GetSubstitution rule, that is, no dollar sign is followed by another
dollar, an ampersand, a backtick, a quote, the one-digit capture reference
`1`, or the two-digit capture reference `01`. -/
def substClean : List Char → Bool
  | [] => true
  | c :: rest =>
    if c = '$' then substCleanDollar rest
    else substClean rest

/-- Cleanliness of the text following a dollar sign, mirroring the case
analysis of `substDollar`: the triggering characters make the template
unclean, a literal `$0` resumes scanning after the `0`, and any other
character resumes ordinary scanning. -/
def substCleanDollar : List Char → Bool
  | [] => true
  | d :: rest2 =>
    if d = '$' then false
    else if d = '&' then false
    else if d = backtickChar then false
    else if d = squoteChar then false
    else if d = '1' then false
    else if d = '0' then substCleanZero rest2
    else substClean rest2

/-- Cleanliness of the text following a `$0`, mirroring `substZero`: the
digit `1` would complete the two-digit capture reference `$01`, so it makes
the template unclean; any other character resumes scanning. -/
def substCleanZero : List Char → Bool
  | [] => true
  | e :: rest3 =>
    if e = '1' then false
    else if e = '$' then substCleanDollar rest3
    else substClean rest3
end

/-- A bundle content with marker, dispatch on gate name `zz`, and a
canonical single-space gate definition carrying the false sentinel. -/
def wcontent : List Char :=
  ("var q=\"TodoWrite\";isEnabled()\x7breturn!zz()\x7dfunction zz()\x7breturn!1\x7d").toList

/-- Counterexample content whose extracted gate name `a$1` contains the
capture-group reference sequence of the replacement grammar. -/
def cexC1 : List Char :=
  ("var q=\"TodoWrite\";isEnabled()\x7breturn!a$1()\x7dfunction a$1()\x7breturn!1\x7d").toList

/-- The output the claim predicts for `cexC1`: the gate definition rewritten
with the unmodified name `a$1` and the true sentinel. -/
def cexC1Claimed : List Char :=
  ("var q=\"TodoWrite\";isEnabled()\x7breturn!a$1()\x7dfunction a$1()\x7breturn!0\x7d").toList

/-- The output the code produces for `cexC1`: the `$1` inside the template
is substituted by the captured literal `!1`. -/
def cexC1Actual : List Char :=
  ("var q=\"TodoWrite\";isEnabled()\x7breturn!a$1()\x7dfunction a!1()\x7breturn!0\x7d").toList

/-- The concrete scenario content of the specification, gate name `zz` and
the false sentinel. -/
def c6content : List Char :=
  ("const x=\"TodoWrite\";...isEnabled()\x7breturn!zz()\x7d...function zz()\x7breturn!1\x7d").toList

/-- The concrete scenario content after enabling: the same text with the
true sentinel. -/
def c6expected : List Char :=
  ("const x=\"TodoWrite\";...isEnabled()\x7breturn!zz()\x7d...function zz()\x7breturn!0\x7d").toList

/-- Counterexample content whose gate definition carries two spaces between
the keyword and the name. -/
def cexC2 : List Char :=
  ("var q=\"TodoWrite\";isEnabled()\x7breturn!zz()\x7dfunction  zz()\x7breturn!1\x7d").toList

/-- The two-space content with only the sentinel token flipped, the only
other output the round-trip claim would permit. -/
def cexC2enabled : List Char :=
  ("var q=\"TodoWrite\";isEnabled()\x7breturn!zz()\x7dfunction  zz()\x7breturn!0\x7d").toList

/-- What the round trip actually produces from `cexC2`: the definition is
rewritten in canonical single-space form. -/
def cexC2Actual : List Char :=
  ("var q=\"TodoWrite\";isEnabled()\x7breturn!zz()\x7dfunction zz()\x7breturn!1\x7d").toList

/-- Counterexample content with gate name `a$1` and two identical gate
definitions. -/
def cexC8 : List Char :=
  ("var q=\"TodoWrite\";isEnabled()\x7breturn!a$1()\x7dfunction a$1()\x7breturn!1\x7dfunction a$1()\x7breturn!1\x7d").toList

/-- A stored JSON object carrying a `__proto__` key. -/
def protoContent : List Char :=
  ("\x7b\"__proto__\":\x7b\"polluted\":true\x7d\x7d").toList

/-- The parsed value of `protoContent`, with the `__proto__` key as an
ordinary own field. -/
def protoJson : Json :=
  Json.obj (JsonFields.cons (("__proto__").toList)
    (Json.obj (JsonFields.cons (("polluted").toList) (Json.bool true) JsonFields.nil))
    JsonFields.nil)

/-- Decomposition of an input at which the gate-definition pattern matches:
the literal keyword, a nonempty whitespace run, the function name verbatim,
the literal mid-section, one of the two sentinel literals, the closing
brace, and the remainder of the input. -/
def GateShape (fn s cap rest : List Char) : Prop :=
  ∃ ws, s = ("function").toList ++ ws ++ fn ++ openRetLit ++ cap ++ [rbrace] ++ rest ∧
    ws ≠ [] ∧ (∀ c ∈ ws, isJsSpace c = true) ∧ (cap = bang0 ∨ cap = bang1)

theorem stripLit_eq_some {lit s r : List Char} :
    stripLit lit s = some r ↔ s = lit ++ r := by
  unfold stripLit
  constructor
  · intro h
    split at h
    · rename_i hp
      obtain ⟨t, ht⟩ := List.isPrefixOf_iff_prefix.mp hp
      injection h with h
      subst h
      rw [← ht, List.drop_left]
    · exact absurd h (by simp)
  · intro h
    subst h
    rw [if_pos (List.isPrefixOf_iff_prefix.mpr ⟨r, rfl⟩), List.drop_left]

theorem stripLit_self_append (lit r : List Char) :
    stripLit lit (lit ++ r) = some r :=
  stripLit_eq_some.mpr rfl

theorem spacesPlusThen_some {α : Type} {k : List Char → Option α} :
    ∀ {s : List Char} {v : α}, spacesPlusThen k s = some v →
      ∃ ws r, s = ws ++ r ∧ ws ≠ [] ∧ (∀ c ∈ ws, isJsSpace c = true) ∧ k r = some v := by
  intro s
  induction s with
  | nil => intro v h; exact absurd h (by simp [spacesPlusThen])
  | cons c rest ih =>
    intro v h
    unfold spacesPlusThen at h
    split at h
    · rename_i hc
      rcases ho : spacesPlusThen k rest with _ | v2
      · rw [ho] at h
        exact ⟨[c], rest, rfl, by simp, by simpa using hc, h⟩
      · rw [ho] at h
        injection h with h
        subst h
        obtain ⟨ws, r, hs, _, hsp, hk⟩ := ih ho
        exact ⟨c :: ws, r, by rw [hs]; rfl, by simp,
          by intro x hx; rcases List.mem_cons.mp hx with hx | hx;
             · subst hx; simpa using hc
             · exact hsp x hx, hk⟩
    · exact absurd h (by simp)

theorem spacesPlusThen_isSome {α : Type} {k : List Char → Option α} :
    ∀ {ws : List Char} {r : List Char}, ws ≠ [] → (∀ c ∈ ws, isJsSpace c = true) →
      (k r).isSome = true → (spacesPlusThen k (ws ++ r)).isSome = true := by
  intro ws
  induction ws with
  | nil => intro r h; exact absurd rfl h
  | cons c rest ih =>
    intro r _ hsp hk
    show (spacesPlusThen k (c :: (rest ++ r))).isSome = true
    unfold spacesPlusThen
    rw [if_pos (hsp c (List.mem_cons_self c rest))]
    rcases ho : spacesPlusThen k (rest ++ r) with _ | v2
    · show (k (rest ++ r)).isSome = true
      rcases hrest : rest with _ | ⟨c2, rest2⟩
      · subst hrest; simpa using hk
      · subst hrest
        have h2 := ih (by simp) (fun x hx => hsp x (List.mem_cons_of_mem c hx)) hk
        rw [ho] at h2; simp at h2
    · simp

theorem litSegMatch_escape :
    ∀ (xs s r : List Char), litSegMatch (escapeRegExp xs) s = some r ↔ s = xs ++ r := by
  intro xs
  induction xs with
  | nil =>
    intro s r
    simp only [escapeRegExp, litSegMatch, List.nil_append, Option.some.injEq]
  | cons x xs ih =>
    intro s r
    unfold escapeRegExp
    by_cases hm : isRegExpMeta x
    · rw [if_pos hm]
      show litSegMatch ('\\' :: x :: escapeRegExp xs) s = some r ↔ s = (x :: xs) ++ r
      unfold litSegMatch
      rw [if_pos rfl]
      cases s with
      | nil => simp
      | cons d rest =>
        show (if d = x then litSegMatch (escapeRegExp xs) rest else none) = some r ↔
          d :: rest = (x :: xs) ++ r
        by_cases hd : d = x
        · rw [if_pos hd]
          subst hd
          rw [ih rest r]
          simp
        · rw [if_neg hd]
          simp [hd]
    · rw [if_neg hm]
      have hbs : x ≠ '\\' := by
        intro h; subst h; exact hm (by decide)
      show litSegMatch (x :: escapeRegExp xs) s = some r ↔ s = (x :: xs) ++ r
      unfold litSegMatch
      rw [if_neg hbs]
      cases s with
      | nil => simp
      | cons d rest =>
        show (if d = x then litSegMatch (escapeRegExp xs) rest else none) = some r ↔
          d :: rest = (x :: xs) ++ r
        by_cases hd : d = x
        · rw [if_pos hd]
          subst hd
          rw [ih rest r]
          simp
        · rw [if_neg hd]
          simp [hd]

theorem gateDefTail_eq_some {fn r2 cap rest : List Char}
    (h : gateDefTail fn r2 = some (cap, rest)) :
    r2 = fn ++ openRetLit ++ cap ++ [rbrace] ++ rest ∧ (cap = bang0 ∨ cap = bang1) := by
  unfold gateDefTail at h
  split at h
  · exact absurd h (by simp)
  · rename_i r3 hl
    have hr2 : r2 = fn ++ r3 := (litSegMatch_escape fn r2 r3).mp hl
    split at h
    · exact absurd h (by simp)
    · rename_i r4 ho
      have hr3 : r3 = openRetLit ++ r4 := stripLit_eq_some.mp ho
      split at h
      · rename_i r5 h0
        injection h with h
        injection h with hc hr
        have hr4 : r4 = bang0 ++ [rbrace] ++ r5 := by
          have h2 := stripLit_eq_some.mp h0; rw [h2]
        subst hr2; subst hr3; subst hr4
        constructor
        · rw [← hc, ← hr]; simp [List.append_assoc]
        · exact Or.inl hc.symm
      · split at h
        · rename_i r5 h1
          injection h with h
          injection h with hc hr
          have hr4 : r4 = bang1 ++ [rbrace] ++ r5 := by
            have h2 := stripLit_eq_some.mp h1; rw [h2]
          subst hr2; subst hr3; subst hr4
          constructor
          · rw [← hc, ← hr]; simp [List.append_assoc]
          · exact Or.inr hc.symm
        · exact absurd h (by simp)

theorem gateDefTail_of_shape {fn cap rest : List Char}
    (hcap : cap = bang0 ∨ cap = bang1) :
    gateDefTail fn (fn ++ (openRetLit ++ (cap ++ ([rbrace] ++ rest)))) = some (cap, rest) := by
  have e1 : litSegMatch (escapeRegExp fn) (fn ++ (openRetLit ++ (cap ++ ([rbrace] ++ rest))))
      = some (openRetLit ++ (cap ++ ([rbrace] ++ rest))) := (litSegMatch_escape _ _ _).mpr rfl
  rcases hcap with hc | hc <;> subst hc
  · have e3 : stripLit (bang0 ++ [rbrace]) (bang0 ++ ([rbrace] ++ rest)) = some rest := by
      rw [show bang0 ++ ([rbrace] ++ rest) = (bang0 ++ [rbrace]) ++ rest by simp]
      exact stripLit_self_append _ _
    simp only [gateDefTail, e1, stripLit_self_append, e3]
  · have h0 : stripLit (bang0 ++ [rbrace]) (bang1 ++ ([rbrace] ++ rest)) = none := by
      unfold stripLit
      rw [if_neg]
      intro hp
      obtain ⟨t, ht⟩ := List.isPrefixOf_iff_prefix.mp hp
      change ('!' :: '0' :: rbrace :: t = '!' :: '1' :: rbrace :: rest) at ht
      injection ht with _ ht2
      injection ht2 with h01 _
      exact absurd h01 (by decide)
    have e3 : stripLit (bang1 ++ [rbrace]) (bang1 ++ ([rbrace] ++ rest)) = some rest := by
      rw [show bang1 ++ ([rbrace] ++ rest) = (bang1 ++ [rbrace]) ++ rest by simp]
      exact stripLit_self_append _ _
    simp only [gateDefTail, e1, stripLit_self_append, e3, h0]

theorem gateDefAt_sound {fn s cap rest : List Char}
    (h : gateDefAt fn s = some (cap, rest)) : GateShape fn s cap rest := by
  unfold gateDefAt at h
  split at h
  · exact absurd h (by simp)
  · rename_i r1 hf
    have hsEq : s = ("function").toList ++ r1 := stripLit_eq_some.mp hf
    obtain ⟨ws, r2, hr1, hne, hsp, hk⟩ := spacesPlusThen_some h
    obtain ⟨hr2, hcap⟩ := gateDefTail_eq_some hk
    refine ⟨ws, ?_, hne, hsp, hcap⟩
    subst hsEq; subst hr1; subst hr2
    simp [List.append_assoc]

theorem gateDefAt_of_shape {fn s cap rest : List Char}
    (h : GateShape fn s cap rest) : (gateDefAt fn s).isSome = true := by
  obtain ⟨ws, hs, hne, hsp, hcap⟩ := h
  subst hs
  unfold gateDefAt
  rw [show ("function").toList ++ ws ++ fn ++ openRetLit ++ cap ++ [rbrace] ++ rest
      = ("function").toList ++ (ws ++ (fn ++ (openRetLit ++ (cap ++ ([rbrace] ++ rest)))))
      by simp [List.append_assoc]]
  rw [stripLit_self_append]
  exact spacesPlusThen_isSome hne hsp (by rw [gateDefTail_of_shape hcap]; rfl)

theorem findGateDefinition_some {fn : List Char} :
    ∀ {c : List Char} {i : Nat} {cap rest : List Char},
      findGateDefinition fn c = some (i, cap, rest) →
      gateDefAt fn (c.drop i) = some (cap, rest) ∧ i ≤ c.length := by
  intro c
  induction c with
  | nil => intro i cap rest h; exact absurd h (by simp [findGateDefinition])
  | cons a t ih =>
    intro i cap rest h
    unfold findGateDefinition at h
    split at h
    · rename_i p hg
      injection h with h
      injection h with h1 h2
      subst h1
      rw [← h2]
      exact ⟨hg, by simp⟩
    · rename_i hg
      rcases hfind : findGateDefinition fn t with _ | p
      · rw [hfind] at h; exact absurd h (by simp)
      · rw [hfind] at h
        injection h with h
        obtain ⟨hat, hle⟩ := ih hfind
        rcases p with ⟨j, cap2, rest2⟩
        injection h with h1 h2
        subst h1
        rw [← h2]
        exact ⟨hat, by simpa using Nat.succ_le_succ hle⟩

theorem substTemplate_clean_aux {m b a cap : List Char} :
    ∀ n (t : List Char), t.length ≤ n →
      (substClean t = true → substTemplate m b a cap t = t) ∧
      (substCleanDollar t = true → substDollar m b a cap t = '$' :: t) ∧
      (substCleanZero t = true → substZero m b a cap t = '$' :: '0' :: t) := by
  intro n
  induction n with
  | zero =>
    intro t ht
    have h0 : t = [] := List.eq_nil_of_length_eq_zero (Nat.le_zero.mp ht)
    subst h0
    exact ⟨fun _ => rfl, fun _ => rfl, fun _ => rfl⟩
  | succ n ih =>
    intro t ht
    refine ⟨?_, ?_, ?_⟩
    · intro h
      cases t with
      | nil => rfl
      | cons c rest =>
        have hlen : rest.length ≤ n := by
          simp only [List.length_cons] at ht; omega
        show (if c = '$' then substDollar m b a cap rest
              else c :: substTemplate m b a cap rest) = c :: rest
        have hred : substClean (c :: rest)
            = (if c = '$' then substCleanDollar rest else substClean rest) := rfl
        rw [hred] at h
        by_cases hc : c = '$'
        · subst hc
          rw [if_pos rfl] at h ⊢
          exact (ih rest hlen).2.1 h
        · rw [if_neg hc] at h ⊢
          rw [(ih rest hlen).1 h]
    · intro h
      cases t with
      | nil => rfl
      | cons d rest2 =>
        have hlen : rest2.length ≤ n := by
          simp only [List.length_cons] at ht; omega
        show (if d = '$' then '$' :: substTemplate m b a cap rest2
              else if d = '&' then m ++ substTemplate m b a cap rest2
              else if d = backtickChar then b ++ substTemplate m b a cap rest2
              else if d = squoteChar then a ++ substTemplate m b a cap rest2
              else if d = '1' then cap ++ substTemplate m b a cap rest2
              else if d = '0' then substZero m b a cap rest2
              else '$' :: d :: substTemplate m b a cap rest2) = '$' :: d :: rest2
        have hred : substCleanDollar (d :: rest2)
            = (if d = '$' then false
              else if d = '&' then false
              else if d = backtickChar then false
              else if d = squoteChar then false
              else if d = '1' then false
              else if d = '0' then substCleanZero rest2
              else substClean rest2) := rfl
        rw [hred] at h
        by_cases h1 : d = '$'
        · rw [if_pos h1] at h; exact absurd h (by simp)
        rw [if_neg h1] at h ⊢
        by_cases h2 : d = '&'
        · rw [if_pos h2] at h; exact absurd h (by simp)
        rw [if_neg h2] at h ⊢
        by_cases h3 : d = backtickChar
        · rw [if_pos h3] at h; exact absurd h (by simp)
        rw [if_neg h3] at h ⊢
        by_cases h4 : d = squoteChar
        · rw [if_pos h4] at h; exact absurd h (by simp)
        rw [if_neg h4] at h ⊢
        by_cases h5 : d = '1'
        · rw [if_pos h5] at h; exact absurd h (by simp)
        rw [if_neg h5] at h ⊢
        by_cases h6 : d = '0'
        · subst h6
          rw [if_pos rfl] at h ⊢
          rw [(ih rest2 hlen).2.2 h]
        · rw [if_neg h6] at h ⊢
          rw [(ih rest2 hlen).1 h]
    · intro h
      cases t with
      | nil => rfl
      | cons e rest3 =>
        have hlen : rest3.length ≤ n := by
          simp only [List.length_cons] at ht; omega
        show (if e = '1' then cap ++ substTemplate m b a cap rest3
              else if e = '$' then '$' :: '0' :: substDollar m b a cap rest3
              else '$' :: '0' :: e :: substTemplate m b a cap rest3) = '$' :: '0' :: e :: rest3
        have hred : substCleanZero (e :: rest3)
            = (if e = '1' then false
              else if e = '$' then substCleanDollar rest3
              else substClean rest3) := rfl
        rw [hred] at h
        by_cases he1 : e = '1'
        · rw [if_pos he1] at h; exact absurd h (by simp)
        rw [if_neg he1] at h ⊢
        by_cases he2 : e = '$'
        · subst he2
          rw [if_pos rfl] at h ⊢
          rw [(ih rest3 hlen).2.1 h]
        · rw [if_neg he2] at h ⊢
          rw [(ih rest3 hlen).1 h]

theorem substTemplate_clean {m b a cap : List Char} :
    ∀ {t : List Char}, substClean t = true → substTemplate m b a cap t = t := by
  intro t h
  exact (substTemplate_clean_aux t.length t le_rfl).1 h

theorem setTeamModeEnabled_eq_of {c fn : List Char} {i : Nat} {cap rest : List Char} {enable : Bool}
    (h1 : findTodoWriteGate c = some fn)
    (h2 : findGateDefinition fn c = some (i, cap, rest))
    (h3 : cap ≠ desiredLiteral enable) :
    setTeamModeEnabled c enable =
      ⟨c.take i ++
        substTemplate ((c.drop i).take ((c.drop i).length - rest.length)) (c.take i) rest cap
          (mkTemplate fn (desiredLiteral enable)) ++ rest,
       true, if enable then .enabled else .disabled⟩ := by
  unfold setTeamModeEnabled
  simp only [h1, h2]
  rw [if_neg h3]

theorem setTeamModeEnabled_noop_of {c fn : List Char} {i : Nat} {cap rest : List Char} {enable : Bool}
    (h1 : findTodoWriteGate c = some fn)
    (h2 : findGateDefinition fn c = some (i, cap, rest))
    (h3 : cap = desiredLiteral enable) :
    setTeamModeEnabled c enable = ⟨c, false, if enable then .enabled else .disabled⟩ := by
  unfold setTeamModeEnabled
  simp only [h1, h2]
  rw [if_pos h3]

theorem searchMarker_eq_none :
    ∀ {c : List Char}, (∀ j, markerAt (c.drop j) = false) → searchMarker c = none := by
  intro c
  induction c with
  | nil => intro _; rfl
  | cons a t ih =>
    intro h
    show (if markerAt (a :: t) then some 0 else (searchMarker t).map (· + 1)) = none
    have h0 := h 0
    rw [List.drop_zero] at h0
    rw [if_neg (by simp [h0])]
    rw [ih (fun j => h (j + 1))]
    rfl

theorem findTodoWriteGate_of_no_marker {c : List Char}
    (h : ∀ j, markerAt (c.drop j) = false) : findTodoWriteGate c = none := by
  unfold findTodoWriteGate
  rw [searchMarker_eq_none h]

theorem isEnabledAt_shape {s fn : List Char} (h : isEnabledAt s = some fn) :
    ∃ c tl, fn = c :: tl ∧ isIdentStart c = true ∧ ∀ x ∈ tl, isIdentChar x = true := by
  unfold isEnabledAt at h
  split at h
  · exact absurd h (by simp)
  · split at h
    · exact absurd h (by simp)
    · rename_i c r2 hr
      split at h
      · rename_i hstart
        split at h
        · rename_i v hv
          injection h with h
          exact ⟨c, List.takeWhile isIdentChar r2, h.symm, hstart,
            fun x hx => List.mem_takeWhile_imp hx⟩
        · exact absurd h (by simp)
      · exact absurd h (by simp)

theorem findIsEnabledName_shape :
    ∀ {w fn : List Char}, findIsEnabledName w = some fn →
      ∃ c tl, fn = c :: tl ∧ isIdentStart c = true ∧ ∀ x ∈ tl, isIdentChar x = true := by
  intro w
  induction w with
  | nil => intro fn h; exact absurd h (by simp [findIsEnabledName])
  | cons a t ih =>
    intro fn h
    unfold findIsEnabledName at h
    split at h
    · rename_i name hat
      injection h with h
      subst h
      exact isEnabledAt_shape hat
    · exact ih h

theorem findTodoWriteGate_shape {c fn : List Char} (h : findTodoWriteGate c = some fn) :
    ∃ c0 tl, fn = c0 :: tl ∧ isIdentStart c0 = true ∧ ∀ x ∈ tl, isIdentChar x = true := by
  unfold findTodoWriteGate at h
  split at h
  · exact absurd h (by simp)
  · exact findIsEnabledName_shape h

theorem identStart_identChar {c : Char} (h : isIdentStart c = true) : isIdentChar c = true := by
  unfold isIdentStart at h
  unfold isIdentChar isWordChar
  rcases (by simpa [or_assoc] using h : c.isAlpha = true ∨ c = '_' ∨ c = '$') with h1 | h1 | h1
  · simp [h1]
  · subst h1; decide
  · subst h1; decide

theorem identChar_meta_eq_dollar {x : Char} (h1 : isIdentChar x = true)
    (h2 : isRegExpMeta x = true) : x = '$' := by
  unfold isRegExpMeta at h2
  rcases (by simpa [or_assoc] using h2 :
      x = '.' ∨ x = '*' ∨ x = '+' ∨ x = '?' ∨ x = '^' ∨ x = '$' ∨ x = lbrace ∨ x = rbrace ∨
      x = '(' ∨ x = ')' ∨ x = '|' ∨ x = '[' ∨ x = ']' ∨ x = '\\') with
    h | h | h | h | h | h | h | h | h | h | h | h | h | h
  all_goals subst h
  all_goals first
    | rfl
    | exact absurd h1 (by decide)

theorem detectTeamModeState_of {c fn : List Char} {i : Nat} {cap rest : List Char}
    (h1 : findTodoWriteGate c = some fn)
    (h2 : findGateDefinition fn c = some (i, cap, rest)) :
    detectTeamModeState c = if cap = bang0 then .enabled else .disabled := by
  unfold detectTeamModeState
  simp only [h1, h2]

theorem detect_enabled_set_noop {c : List Char}
    (h : detectTeamModeState c = TeamModeState.enabled) :
    setTeamModeEnabled c true = ⟨c, false, TeamModeState.enabled⟩ := by
  unfold detectTeamModeState at h
  split at h
  · exact absurd h (by decide)
  · rename_i fn hg
    split at h
    · exact absurd h (by decide)
    · rename_i i cap rest hd
      by_cases hc : cap = bang0
      · exact setTeamModeEnabled_noop_of hg hd (hc.trans rfl)
      · rw [if_neg hc] at h
        exact absurd h (by decide)

/-- C1 (counterexample): on a content whose extracted gate name is `a$1`,
the mutation reports a change but the replaced occurrence does not read
`function a$1(){return!0}` — the `$1` in the replacement template is
substituted by the captured literal. -/
theorem set_replacement_name_substitution_cex :
    (setTeamModeEnabled cexC1 true).changed = true ∧
    (setTeamModeEnabled cexC1 true).content = cexC1Actual ∧
    cexC1Actual ≠ cexC1Claimed :=
  ⟨rfl, rfl, by decide⟩

/-- C1 (amended): when the gate is located, the current literal differs
from the desired one, and the replacement template built from the extracted
name contains no GetSubstitution sequence, the returned content is the
input with exactly the first matched gate-definition substring replaced by
`function <fnName>(){return<desiredLiteral>}`. -/
theorem setTeamModeEnabled_replaces_first_match_canonically
    (c fn cap rest : List Char) (i : Nat) (enable : Bool)
    (h1 : findTodoWriteGate c = some fn)
    (h2 : findGateDefinition fn c = some (i, cap, rest))
    (h3 : cap ≠ desiredLiteral enable)
    (h4 : substClean (mkTemplate fn (desiredLiteral enable)) = true) :
    (setTeamModeEnabled c enable).content
        = c.take i ++ mkTemplate fn (desiredLiteral enable) ++ rest ∧
    (setTeamModeEnabled c enable).changed = true ∧
    ∃ ws, c = c.take i ++ (("function").toList ++ ws ++ fn ++ openRetLit ++ cap ++ [rbrace]) ++ rest ∧
      ws ≠ [] ∧ ∀ ch ∈ ws, isJsSpace ch = true := by
  have e1 := setTeamModeEnabled_eq_of h1 h2 h3
  refine ⟨?_, ?_, ?_⟩
  · rw [e1]
    show c.take i ++
        substTemplate ((c.drop i).take ((c.drop i).length - rest.length)) (c.take i) rest cap
          (mkTemplate fn (desiredLiteral enable)) ++ rest
      = c.take i ++ mkTemplate fn (desiredLiteral enable) ++ rest
    rw [substTemplate_clean h4]
  · rw [e1]
  · obtain ⟨hat, _⟩ := findGateDefinition_some h2
    obtain ⟨ws, hdrop, hne, hsp, _⟩ := gateDefAt_sound hat
    refine ⟨ws, ?_, hne, hsp⟩
    conv_lhs => rw [← List.take_append_drop i c]
    rw [hdrop]
    simp [List.append_assoc]

/-- C1 (witness): the amended theorem applied to a concrete canonical
content with gate name `zz`. -/
theorem set_replaces_canonically_witness :
    (setTeamModeEnabled wcontent true).content
        = wcontent.take 42 ++ mkTemplate (("zz").toList) (desiredLiteral true) ++ [] ∧
    (setTeamModeEnabled wcontent true).changed = true ∧
    ∃ ws, wcontent = wcontent.take 42 ++
        (("function").toList ++ ws ++ ("zz").toList ++ openRetLit ++ bang1 ++ [rbrace]) ++ [] ∧
      ws ≠ [] ∧ ∀ ch ∈ ws, isJsSpace ch = true :=
  setTeamModeEnabled_replaces_first_match_canonically wcontent (("zz").toList) bang1 [] 42 true
    rfl rfl (by decide) (by decide)

/-- C2 (counterexample): on a content whose gate definition carries two
spaces, the round trip reports a change, classifies the result as disabled,
but the result is neither the original content nor the original with only
the sentinel token flipped — the whitespace inside the definition is
normalized, so the result differs in more than the sentinel token. -/
theorem round_trip_whitespace_cex :
    (setTeamModeEnabled cexC2 true).changed = true ∧
    (setTeamModeEnabled (setTeamModeEnabled cexC2 true).content false).content = cexC2Actual ∧
    cexC2Actual ≠ cexC2 ∧
    cexC2Actual ≠ cexC2enabled ∧
    detectTeamModeState cexC2Actual = TeamModeState.disabled :=
  ⟨rfl, rfl, by decide, by decide, rfl⟩

/-- C2 (amended): when the original gate definition is already in canonical
single-space form, the templates built from the extracted name contain no
GetSubstitution sequence, and the intermediate content still locates the
same gate at the same position with the true sentinel, the round trip
restores the original content exactly (so every character is preserved) and
the restored content is classified as disabled. -/
theorem round_trip_restores_canonical_content
    (c fn rest : List Char) (i : Nat)
    (h1 : findTodoWriteGate c = some fn)
    (h2 : findGateDefinition fn c = some (i, bang1, rest))
    (hcanon : c.drop i = mkTemplate fn bang1 ++ rest)
    (hcl0 : substClean (mkTemplate fn bang0) = true)
    (hcl1 : substClean (mkTemplate fn bang1) = true)
    (h3 : findTodoWriteGate (setTeamModeEnabled c true).content = some fn)
    (h4 : findGateDefinition fn (setTeamModeEnabled c true).content = some (i, bang0, rest)) :
    (setTeamModeEnabled (setTeamModeEnabled c true).content false).content = c ∧
    detectTeamModeState (setTeamModeEnabled (setTeamModeEnabled c true).content false).content
      = TeamModeState.disabled := by
  have hne0 : bang1 ≠ desiredLiteral true := by decide
  have hne1 : bang0 ≠ desiredLiteral false := by decide
  have hlen : i ≤ c.length := (findGateDefinition_some h2).2
  have e1 := setTeamModeEnabled_eq_of h1 h2 hne0
  have hc1 : (setTeamModeEnabled c true).content
      = c.take i ++ mkTemplate fn bang0 ++ rest := by
    rw [e1]
    show c.take i ++
        substTemplate ((c.drop i).take ((c.drop i).length - rest.length)) (c.take i) rest bang1
          (mkTemplate fn (desiredLiteral true)) ++ rest
      = c.take i ++ mkTemplate fn bang0 ++ rest
    rw [show desiredLiteral true = bang0 from rfl, substTemplate_clean hcl0]
  have e2 := setTeamModeEnabled_eq_of h3 h4 hne1
  have htake : (setTeamModeEnabled c true).content.take i = c.take i := by
    rw [hc1]
    rw [show c.take i ++ mkTemplate fn bang0 ++ rest
        = c.take i ++ (mkTemplate fn bang0 ++ rest) by simp [List.append_assoc]]
    exact List.take_left' (by rw [List.length_take]; exact Nat.min_eq_left hlen)
  have hc2 : (setTeamModeEnabled (setTeamModeEnabled c true).content false).content
      = c.take i ++ mkTemplate fn bang1 ++ rest := by
    rw [e2]
    show (setTeamModeEnabled c true).content.take i ++
        substTemplate _ ((setTeamModeEnabled c true).content.take i) rest bang0
          (mkTemplate fn (desiredLiteral false)) ++ rest
      = c.take i ++ mkTemplate fn bang1 ++ rest
    rw [show desiredLiteral false = bang1 from rfl, substTemplate_clean hcl1, htake]
  have hfinal : (setTeamModeEnabled (setTeamModeEnabled c true).content false).content = c := by
    rw [hc2,
      show c.take i ++ mkTemplate fn bang1 ++ rest
        = c.take i ++ (mkTemplate fn bang1 ++ rest) by simp [List.append_assoc],
      ← hcanon]
    exact List.take_append_drop i c
  refine ⟨hfinal, ?_⟩
  rw [hfinal, detectTeamModeState_of h1 h2, if_neg (by decide)]

/-- C2 (witness): the amended theorem applied to a concrete canonical
content with gate name `zz`. -/
theorem round_trip_restores_witness :
    (setTeamModeEnabled (setTeamModeEnabled wcontent true).content false).content = wcontent ∧
    detectTeamModeState
        (setTeamModeEnabled (setTeamModeEnabled wcontent true).content false).content
      = TeamModeState.disabled :=
  round_trip_restores_canonical_content wcontent (("zz").toList) [] 42
    rfl rfl rfl (by decide) (by decide) rfl rfl

/-- C3: the gate-definition search built from the escaped extracted name
matches at a position if and only if the content at that position literally
reads `function`, whitespace, the exact name, the call-and-return
mid-section, one of the two sentinel literals, and the closing brace; in
particular it never matches a definition of a different function. -/
theorem gate_definition_matches_iff_literal (fn s : List Char) :
    (gateDefAt fn s).isSome = true ↔
    ∃ ws lit rest,
      s = ("function").toList ++ ws ++ fn ++ openRetLit ++ lit ++ [rbrace] ++ rest ∧
      ws ≠ [] ∧ (∀ c ∈ ws, isJsSpace c = true) ∧ (lit = bang0 ∨ lit = bang1) := by
  constructor
  · intro h
    rcases hsome : gateDefAt fn s with _ | ⟨cap, rest⟩
    · rw [hsome] at h; exact absurd h (by simp)
    · obtain ⟨ws, hs, hne, hsp, hcap⟩ := gateDefAt_sound hsome
      exact ⟨ws, cap, rest, hs, hne, hsp, hcap⟩
  · rintro ⟨ws, lit, rest, hs, hne, hsp, hcap⟩
    exact gateDefAt_of_shape ⟨ws, hs, hne, hsp, hcap⟩

/-- C3 (witness): the characterization applied at a concrete name and
content suffix. -/
theorem gate_definition_matches_iff_literal_witness :
    (gateDefAt (("zz").toList) (("function zz()\x7breturn!0\x7dXYZ").toList)).isSome = true :=
  (gate_definition_matches_iff_literal (("zz").toList) _).mpr
    ⟨[' '], bang0, ("XYZ").toList, by decide, by decide, by decide, Or.inl rfl⟩

/-- C4: `readJson` on a stored object with a `__proto__` key returns the
value with that key intact as an ordinary own field — the
stringify-then-parse round trip of `sanitizeJson` does not strip it, so the
value is neither absent nor stripped of the key. -/
theorem readJson_retains_proto_keys :
    readJson (some protoContent) = some protoJson ∧
    protoJson ≠ Json.obj JsonFields.nil ∧
    readJson (some protoContent) ≠ none :=
  ⟨rfl, by decide, by decide⟩

/-- C5: the content returned by `setTeamModeEnabled` differs from the
input, if at all, only within the single first-matched gate-definition
substring: either the content is returned unchanged, or the first match
decomposes the content and the output preserves every character before and
after that one matched substring. -/
theorem setTeamModeEnabled_frame (c : List Char) (enable : Bool) :
    (setTeamModeEnabled c enable).content = c ∨
    ∃ fn i cap rest matched repl,
      findTodoWriteGate c = some fn ∧
      findGateDefinition fn c = some (i, cap, rest) ∧
      gateDefAt fn (c.drop i) = some (cap, rest) ∧
      c = c.take i ++ matched ++ rest ∧
      (setTeamModeEnabled c enable).content = c.take i ++ repl ++ rest := by
  rcases hg : findTodoWriteGate c with _ | fn
  · left; simp [setTeamModeEnabled, hg]
  · rcases hd : findGateDefinition fn c with _ | ⟨i, cap, rest⟩
    · left; simp [setTeamModeEnabled, hg, hd]
    · by_cases hc : cap = desiredLiteral enable
      · left; rw [setTeamModeEnabled_noop_of hg hd hc]
      · right
        obtain ⟨hat, _⟩ := findGateDefinition_some hd
        obtain ⟨ws, hdrop, _, _, _⟩ := gateDefAt_sound hat
        refine ⟨fn, i, cap, rest,
          ("function").toList ++ ws ++ fn ++ openRetLit ++ cap ++ [rbrace],
          substTemplate ((c.drop i).take ((c.drop i).length - rest.length)) (c.take i) rest cap
            (mkTemplate fn (desiredLiteral enable)),
          rfl, hd, hat, ?_, ?_⟩
        · conv_lhs => rw [← List.take_append_drop i c]
          rw [hdrop]
          simp [List.append_assoc]
        · rw [setTeamModeEnabled_eq_of hg hd hc]

/-- C6: for every content with a located gate, the state is classified
`enabled` exactly on the true sentinel and `disabled` exactly on the false
sentinel; and on the specification's concrete scenario content the state is
`disabled`, while enabling rewrites the definition to the true sentinel
with a change reported and state `enabled`. -/
theorem detect_classifies_sentinels_and_scenario :
    (∀ c fn i cap rest, findTodoWriteGate c = some fn →
      findGateDefinition fn c = some (i, cap, rest) →
      (cap = bang0 → detectTeamModeState c = TeamModeState.enabled) ∧
      (cap = bang1 → detectTeamModeState c = TeamModeState.disabled)) ∧
    detectTeamModeState c6content = TeamModeState.disabled ∧
    setTeamModeEnabled c6content true = ⟨c6expected, true, TeamModeState.enabled⟩ ∧
    (("function zz()\x7breturn!0\x7d").toList) <:+: c6expected := by
  refine ⟨?_, rfl, rfl, ?_⟩
  · intro c fn i cap rest h1 h2
    constructor
    · intro hc
      rw [detectTeamModeState_of h1 h2, if_pos hc]
    · intro hc
      subst hc
      rw [detectTeamModeState_of h1 h2, if_neg (by decide)]
  · exact ⟨(("const x=\"TodoWrite\";...isEnabled()\x7breturn!zz()\x7d...").toList), [], by decide⟩

/-- C6 (witness): the classification component applied to the concrete
scenario content, hypotheses discharged by computation. -/
theorem detect_classifies_witness :
    detectTeamModeState c6content = TeamModeState.disabled :=
  (detect_classifies_sentinels_and_scenario.1 c6content (("zz").toList) 50 bang1 []
    rfl rfl).2 rfl

/-- C7: for every content in which the marker pattern matches at no
position, the state is classified `unknown` and mutation returns the input
unchanged with `changed = false` and state `unknown`, for either desired
flag value; the embedding is total, so the outcome is this sentinel value
rather than an exception. -/
theorem no_marker_yields_unknown (c : List Char)
    (h : ∀ j, j ≤ c.length → markerAt (c.drop j) = false) :
    detectTeamModeState c = TeamModeState.unknown ∧
    ∀ enable, setTeamModeEnabled c enable = ⟨c, false, TeamModeState.unknown⟩ := by
  have hfull : ∀ j, markerAt (c.drop j) = false := by
    intro j
    by_cases hj : j ≤ c.length
    · exact h j hj
    · rw [List.drop_eq_nil_of_le (by omega)]
      rfl
  have hg := findTodoWriteGate_of_no_marker hfull
  exact ⟨by simp [detectTeamModeState, hg], fun e => by simp [setTeamModeEnabled, hg]⟩

/-- C7 (witness): the theorem applied to a concrete marker-free content,
the hypothesis discharged by checking every suffix. -/
theorem no_marker_yields_unknown_witness :
    detectTeamModeState (("hello").toList) = TeamModeState.unknown ∧
    setTeamModeEnabled (("hello").toList) true
      = ⟨("hello").toList, false, TeamModeState.unknown⟩ ∧
    setTeamModeEnabled (("hello").toList) false
      = ⟨("hello").toList, false, TeamModeState.unknown⟩ :=
  ⟨(no_marker_yields_unknown (("hello").toList) (by decide)).1,
   (no_marker_yields_unknown (("hello").toList) (by decide)).2 true,
   (no_marker_yields_unknown (("hello").toList) (by decide)).2 false⟩

/-- C8 (counterexample): on a content whose extracted gate name is `a$1`
and which carries two identical gate definitions, the first enabling call
corrupts the name inside the first definition, so the second enabling call
matches the second definition and reports a change again, producing a third
distinct content. -/
theorem set_true_twice_rechanges_cex :
    (setTeamModeEnabled cexC8 true).changed = true ∧
    (setTeamModeEnabled (setTeamModeEnabled cexC8 true).content true).changed = true ∧
    (setTeamModeEnabled (setTeamModeEnabled cexC8 true).content true).content
      ≠ (setTeamModeEnabled cexC8 true).content :=
  ⟨rfl, rfl, by decide⟩

/-- C8 (amended): whenever the first enabling call reports a change and its
output is still classified `enabled` (true in the ordinary case where the
rewritten definition is recognized), the second enabling call returns that
output unchanged with `changed = false`. -/
theorem set_true_idempotent_on_recognized_output (c : List Char)
    (_hchanged : (setTeamModeEnabled c true).changed = true)
    (h : detectTeamModeState (setTeamModeEnabled c true).content = TeamModeState.enabled) :
    setTeamModeEnabled (setTeamModeEnabled c true).content true
      = ⟨(setTeamModeEnabled c true).content, false, TeamModeState.enabled⟩ :=
  detect_enabled_set_noop h

/-- C8 (witness): the amended theorem applied to a concrete canonical
content. -/
theorem set_true_idempotent_witness :
    setTeamModeEnabled (setTeamModeEnabled wcontent true).content true
      = ⟨(setTeamModeEnabled wcontent true).content, false, TeamModeState.enabled⟩ :=
  set_true_idempotent_on_recognized_output wcontent rfl rfl

/-- C9: preset-list parsing returns the empty list on an undefined or empty
input, and otherwise splits the input on commas, trims and lowercases every
token, and keeps, in their original order, exactly the tokens naming a
known preset. -/
theorem parseMcpPresets_spec :
    parseMcpPresets none = [] ∧
    parseMcpPresets (some []) = [] ∧
    (∀ s, parseMcpPresets (some s) =
      ((splitOnComma s).map normalizeKey).filter (fun k => (getMcpPreset k).isSome)) ∧
    (∀ s, (parseMcpPresets (some s)).Sublist ((splitOnComma s).map normalizeKey)) ∧
    parseMcpPresets (some (("codex,unknown,gemini").toList))
      = [("codex").toList, ("gemini").toList] ∧
    parseMcpPresets (some ((" CODEX , Gemini ").toList))
      = [("codex").toList, ("gemini").toList] := by
  refine ⟨rfl, rfl, ?_, ?_, rfl, rfl⟩
  · intro s
    by_cases h : s = []
    · subst h; rfl
    · simp only [parseMcpPresets, if_neg h]
  · intro s
    by_cases h : s = []
    · subst h
      exact List.nil_sublist _
    · simp only [parseMcpPresets, if_neg h]
      exact List.filter_sublist _

/-- C10: every gate function name extracted by `findTodoWriteGate` is
nonempty, starts with a letter, underscore or dollar sign, continues with
word characters or dollar signs, and consequently contains no regular
expression metacharacter other than the dollar sign. -/
theorem extracted_gate_name_shape (c fn : List Char)
    (h : findTodoWriteGate c = some fn) :
    (∃ c0 tl, fn = c0 :: tl ∧ isIdentStart c0 = true ∧ ∀ x ∈ tl, isIdentChar x = true) ∧
    ∀ x ∈ fn, isRegExpMeta x = true → x = '$' := by
  obtain ⟨c0, tl, hfn, hstart, htl⟩ := findTodoWriteGate_shape h
  refine ⟨⟨c0, tl, hfn, hstart, htl⟩, ?_⟩
  intro x hx hmeta
  subst hfn
  rcases List.mem_cons.mp hx with hx | hx
  · subst hx
    exact identChar_meta_eq_dollar (identStart_identChar hstart) hmeta
  · exact identChar_meta_eq_dollar (htl x hx) hmeta

/-- C10 (witness): the invariant applied to a concrete content whose
extracted name is `zz`. -/
theorem extracted_gate_name_shape_witness :
    (∃ c0 tl, ("zz").toList = c0 :: tl ∧ isIdentStart c0 = true ∧
      ∀ x ∈ tl, isIdentChar x = true) ∧
    ∀ x ∈ ("zz").toList, isRegExpMeta x = true → x = '$' :=
  extracted_gate_name_shape wcontent (("zz").toList) rfl
